import Mathlib

/-!
Verification of the algorithmic core of the notebook repository: the CTC
greedy decoder of the handwritten-OCR notebook and the autoregressive
text-generation loop (top-k filtering, softmax, sampling) of the GPT-2
notebook.  Numeric scores are modelled as rationals; the IEEE value
negative infinity, used by the code as the mask value for discarded
logits, is modelled by the bottom element of `WithBot ℚ`.
-/

namespace OVN

/-- Scores appearing in the logit pipeline: a finite value or `-∞`
(the `filter_value = -float("inf")` of the notebook). -/
abbrev Score := WithBot ℚ

/-- Inclusion of a finite logit value into the extended score type. -/
def coeScore (q : ℚ) : Score := (q : WithBot ℚ)

/-! ### Generic list max / min helpers (the `np.max`, `np.min` reductions) -/

/-- Maximum of a list of rationals (`np.max` on a row); junk value `0` on
the empty list, on which numpy raises. -/
def listMaxQ : List ℚ → ℚ
  | [] => 0
  | [x] => x
  | x :: y :: ys => max x (listMaxQ (y :: ys))

/-- Maximum of a list of extended scores; `⊥` is the identity of `max`. -/
def listMaxWB (l : List Score) : Score := l.foldr max ⊥

/-- Minimum of a list of extended scores (`np.min`); junk value `⊥` on the
empty list, on which numpy raises. -/
def listMinWB : List Score → Score
  | [] => ⊥
  | [x] => x
  | x :: y :: ys => min x (listMinWB (y :: ys))

/-! ### CTC greedy decoder (OCR notebook, cells `da1b8bc5` / `f6730159`) -/

/-- `np.argmax` on one row: the first index at which the row attains its
maximum (numpy documents first-occurrence tie breaking). -/
def argmaxRow (row : List ℚ) : ℕ := row.indexOf (listMaxQ row)

/-- Keys of `itertools.groupby`: collapse consecutive equal entries into a
single occurrence. -/
def collapseRuns : List ℕ → List ℕ
  | [] => []
  | [x] => [x]
  | x :: y :: ys => if x = y then collapseRuns (y :: ys) else x :: collapseRuns (y :: ys)

/-- The `letters` string of the notebook: the blank symbol `~` prepended to
the charlist. -/
def lettersOf (charlist : List Char) : List Char := '~' :: charlist

/-- Index sequence produced by the decoder before symbol lookup: per-row
argmax, collapse of consecutive repeats, removal of the blank label 0. -/
def decodeIdx (probMatrix : List (List ℚ)) : List ℕ :=
  (collapseRuns (probMatrix.map argmaxRow)).filter (· ≠ 0)

/-- The CTC greedy decoder of the OCR notebook: argmax per time step,
collapse consecutive repeats, drop blanks, map surviving indexes through
`letters` (`output_text = [letters[i] for i in output_text_indexes]`). -/
def ctc_decode (probMatrix : List (List ℚ)) (charlist : List Char) : List Char :=
  (decodeIdx probMatrix).map (fun i => (lettersOf charlist).getD i '?')

/-- One-hot score row selecting label `i` among `n` labels. -/
def oneHot : ℕ → ℕ → List ℚ
  | _, 0 => []
  | 0, n + 1 => 1 :: List.replicate n 0
  | i + 1, n + 1 => 0 :: oneHot i n

/-- Modelled from the spec: `expand` of testable property §8 — it
"maps the decoded symbol sequence to one frame per symbol (one label per
time step, no repeats)"; each symbol becomes the frame whose argmax is the
symbol's label index (charlist position + 1, blank at 0).  This function
does not exist in the source; the spec only quantifies over it. -/
def expandSeq (charlist : List Char) (s : List Char) : List (List ℚ) :=
  s.map (fun c => oneHot (charlist.indexOf c + 1) (charlist.length + 1))

/-! ### GPT-2 logit pipeline (cells 14, 16, 18 of the GPT-2 notebook) -/

/-- `process_logits` of the notebook: when the current length is below
`min_length`, force the end-of-sequence logit to `-∞`. -/
def process_logits (cur_length : ℕ) (scores : List Score) (eos_token_id : ℕ)
    (min_length : ℕ) : List Score :=
  if cur_length < min_length then scores.set eos_token_id ⊥ else scores

/-- Descending sort of the scores (`-np.sort(-scores)`); the entry values
of a descending-sorted permutation are unique, so any correct sort models
`np.sort`. -/
def sortDesc (l : List Score) : List Score := l.insertionSort (· ≥ ·)

/-- Clamping of `top_k` in `get_top_k_logits`:
`top_k = min(max(top_k, 1), scores.shape[-1])`. -/
def clampK (top_k n : ℕ) : ℕ := min (max top_k 1) n

/-- The threshold computed by `get_top_k_logits`:
`np.min(-np.sort(-scores)[:, :top_k])`, the minimum of the `k` largest
entries, i.e. the k-th highest score. -/
def kthBest (scores : List Score) (k : ℕ) : Score := listMinWB ((sortDesc scores).take k)

/-- `get_top_k_logits` of the notebook: clamp `top_k`, compute the k-th
highest score, and replace every entry strictly below it with `-∞`
(`np.ma.array(scores, mask=scores < np.min(top_k_scores),
fill_value=-inf).filled()`). -/
def get_top_k_logits (scores : List Score) (top_k : ℕ) : List Score :=
  let thr := kthBest scores (clampK top_k scores.length)
  scores.map (fun s => if s < thr then ⊥ else s)

/-- `np.exp (a - m)` for an extended score `a` and the row maximum `m`,
with the IEEE convention `exp (-∞) = 0`.  When `m = ⊥` every entry of the
row is `-∞`; numpy would produce NaN there, a degenerate input outside
every claim, modelled as `0`. -/
noncomputable def expShift (m a : Score) : ℝ :=
  match a, m with
  | (q : ℚ), (mq : ℚ) => Real.exp ((q : ℝ) - (mq : ℝ))
  | _, _ => 0

/-- `softmax` of the notebook:
`e_x = np.exp(x - np.max(x)); return e_x / e_x.sum()`. -/
noncomputable def softmax (x : List Score) : List ℝ :=
  let e_x := x.map (expShift (listMaxWB x))
  e_x.map (fun v => v / e_x.sum)

/-- `np.argmax` over an extended-score vector: first index attaining the
maximum. -/
def argmaxWB (l : List Score) : ℕ := l.indexOf (listMaxWB l)

/-- The indices `np.random.choice(len probs, 1, p=probs)` can return: those
carrying positive probability mass. -/
def canSample (probs : List ℝ) (i : ℕ) : Prop :=
  i < probs.length ∧ 0 < probs.getD i 0

/-! ### Generation loop (`generate_sequence`, cell 20 of the GPT-2 notebook) -/

/-- Loop state of `generate_sequence`: the growing token sequence and its
parallel attention mask. -/
structure GenState where
  input_ids : List ℕ
  attention_mask : List ℕ
  deriving DecidableEq, Repr

/-- One iteration of the `while True` loop.  The freshly sampled token is
supplied by the oracle `next` (one inference-engine call followed by the
stochastic draw).  `none` means the loop breaks: the check
`cur_input_len == max_sequence_length or next_tokens == eos_token_id`
fires *before* the append; otherwise the token is appended and the mask
extended with a `1`. -/
def genStep (next : GenState → ℕ) (eos_token_id maxLen : ℕ) (s : GenState) :
    Option GenState :=
  if s.input_ids.length = maxLen ∨ next s = eos_token_id then none
  else some ⟨s.input_ids ++ [next s], s.attention_mask ++ [1]⟩

/-- Fuel-indexed run of the generation loop, returning the final state and
the number of loop iterations entered; each iteration performs exactly one
inference-engine call (the terminal iteration included, since the engine is
invoked and a token sampled before the break test). -/
def genRun (next : GenState → ℕ) (eos_token_id maxLen : ℕ) :
    ℕ → GenState → Option (GenState × ℕ)
  | 0, _ => none
  | fuel + 1, s =>
    match genStep next eos_token_id maxLen s with
    | none => some (s, 1)
    | some s' =>
      match genRun next eos_token_id maxLen fuel s' with
      | none => none
      | some (t, n) => some (t, n + 1)

/-- The mask invariant of the loop state: the attention mask is parallel to
the token sequence and holds only `0`/`1` entries. -/
def maskParallel (s : GenState) : Prop :=
  s.attention_mask.length = s.input_ids.length ∧
    ∀ b ∈ s.attention_mask, b = 0 ∨ b = 1

instance (s : GenState) : Decidable (maskParallel s) := by
  unfold maskParallel; infer_instance

/-! ### Helper lemmas about the list reductions -/

lemma listMaxQ_mem : ∀ {l : List ℚ}, l ≠ [] → listMaxQ l ∈ l
  | [], h => absurd rfl h
  | [x], _ => by simp [listMaxQ]
  | x :: y :: ys, _ => by
    simp only [listMaxQ]
    rcases max_choice x (listMaxQ (y :: ys)) with h' | h' <;> rw [h']
    · exact List.mem_cons_self _ _
    · exact List.mem_cons_of_mem _ (listMaxQ_mem (by simp))

lemma le_listMaxQ : ∀ {l : List ℚ} {x : ℚ}, x ∈ l → x ≤ listMaxQ l
  | [], _, h => by simp at h
  | [a], x, h => by simp at h; simp [listMaxQ, h]
  | a :: y :: ys, x, h => by
    simp only [listMaxQ]
    rcases List.mem_cons.mp h with rfl | h'
    · exact le_max_left _ _
    · exact le_trans (le_listMaxQ h') (le_max_right _ _)

lemma listMaxWB_cons (x : Score) (t : List Score) :
    listMaxWB (x :: t) = max x (listMaxWB t) := rfl

lemma le_listMaxWB : ∀ {l : List Score} {x : Score}, x ∈ l → x ≤ listMaxWB l
  | [], _, h => by simp at h
  | a :: t, x, h => by
    rw [listMaxWB_cons]
    rcases List.mem_cons.mp h with rfl | h'
    · exact le_max_left _ _
    · exact le_trans (le_listMaxWB h') (le_max_right _ _)

lemma listMaxWB_mem : ∀ {l : List Score}, l ≠ [] → listMaxWB l ∈ l
  | [], h => absurd rfl h
  | [x], _ => by simp [listMaxWB]
  | x :: y :: ys, _ => by
    rw [listMaxWB_cons]
    rcases max_choice x (listMaxWB (y :: ys)) with h' | h' <;> rw [h']
    · exact List.mem_cons_self _ _
    · exact List.mem_cons_of_mem _ (listMaxWB_mem (by simp))

lemma listMaxWB_eq_of {l : List Score} {a : Score} (ha : a ∈ l)
    (hub : ∀ y ∈ l, y ≤ a) : listMaxWB l = a :=
  le_antisymm (hub _ (listMaxWB_mem (List.ne_nil_of_mem ha))) (le_listMaxWB ha)

lemma listMinWB_le : ∀ {l : List Score} {x : Score}, x ∈ l → listMinWB l ≤ x
  | [], _, h => by simp at h
  | [a], x, h => by simp at h; simp [listMinWB, h]
  | a :: y :: ys, x, h => by
    simp only [listMinWB]
    rcases List.mem_cons.mp h with rfl | h'
    · exact min_le_left _ _
    · exact le_trans (min_le_right _ _) (listMinWB_le h')

lemma listMinWB_mem : ∀ {l : List Score}, l ≠ [] → listMinWB l ∈ l
  | [], h => absurd rfl h
  | [x], _ => by simp [listMinWB]
  | x :: y :: ys, _ => by
    simp only [listMinWB]
    rcases min_choice x (listMinWB (y :: ys)) with h' | h' <;> rw [h']
    · exact List.mem_cons_self _ _
    · exact List.mem_cons_of_mem _ (listMinWB_mem (by simp))

lemma getD_map {α β : Type*} (f : α → β) {l : List α} {i : ℕ} (h : i < l.length)
    (d : α) (d' : β) : (l.map f).getD i d' = f (l.getD i d) := by
  rw [List.getD_eq_getElem _ _ (by simpa using h), List.getD_eq_getElem _ _ h,
    List.getElem_map]

lemma getD_ne_of_lt_indexOf {α : Type*} [DecidableEq α] :
    ∀ (l : List α) (j : ℕ) (d a : α), j < l.indexOf a → l.getD j d ≠ a
  | [], j, d, a, h => by simp [List.indexOf_nil] at h
  | x :: t, 0, d, a, h => by
    intro he
    simp only [List.getD_cons_zero] at he
    subst he
    simp [List.indexOf_cons_self] at h
  | x :: t, j + 1, d, a, h => by
    have hxa : x ≠ a := by
      rintro rfl
      simp [List.indexOf_cons_self] at h
    rw [List.indexOf_cons_ne _ hxa] at h
    simpa using getD_ne_of_lt_indexOf t j d a (Nat.lt_of_succ_lt_succ h)

lemma indexOf_eq_of_getD {α : Type*} [DecidableEq α] :
    ∀ (l : List α) (i : ℕ) (d a : α), i < l.length → l.getD i d = a →
      (∀ j, j < i → l.getD j d ≠ a) → l.indexOf a = i
  | [], i, _, _, hi, _, _ => by simp at hi
  | x :: t, 0, d, a, _, hx, _ => by
    simp only [List.getD_cons_zero] at hx
    subst hx
    exact List.indexOf_cons_self _ _
  | x :: t, i + 1, d, a, hi, hx, hj => by
    have hxa : x ≠ a := by simpa using hj 0 (Nat.succ_pos _)
    rw [List.indexOf_cons_ne _ hxa]
    have ht : t.indexOf a = i :=
      indexOf_eq_of_getD t i d a (by simpa using hi) (by simpa using hx)
        (fun j hji => by simpa using hj (j + 1) (Nat.succ_lt_succ hji))
    rw [ht]

/-! ### Lemmas about the CTC decoder -/

lemma argmaxRow_lt_length {row : List ℚ} (h : row ≠ []) : argmaxRow row < row.length :=
  List.indexOf_lt_length.mpr (listMaxQ_mem h)

lemma getD_argmaxRow {row : List ℚ} (h : row ≠ []) :
    row.getD (argmaxRow row) 0 = listMaxQ row := by
  have hlt : row.indexOf (listMaxQ row) < row.length :=
    List.indexOf_lt_length.mpr (listMaxQ_mem h)
  rw [argmaxRow, List.getD_eq_getElem _ _ hlt]
  exact List.indexOf_get hlt

lemma getD_lt_of_lt_argmaxRow {row : List ℚ} {j : ℕ} (hj : j < argmaxRow row) :
    row.getD j 0 < listMaxQ row := by
  have hne : row ≠ [] := by
    rintro rfl
    simp [argmaxRow, listMaxQ, List.indexOf_nil] at hj
  have hjl : j < row.length := lt_trans hj (argmaxRow_lt_length hne)
  have hmem : row.getD j 0 ∈ row := by
    rw [List.getD_eq_getElem _ _ hjl]
    exact List.getElem_mem _
  exact lt_of_le_of_ne (le_listMaxQ hmem) (getD_ne_of_lt_indexOf row j 0 _ hj)

lemma collapseRuns_subset : ∀ {l : List ℕ} {x : ℕ}, x ∈ collapseRuns l → x ∈ l
  | [], x, h => by simp [collapseRuns] at h
  | [a], x, h => by simpa [collapseRuns] using h
  | a :: b :: t, x, h => by
    rw [collapseRuns] at h
    by_cases hab : a = b
    · rw [if_pos hab] at h
      exact List.mem_cons_of_mem _ (collapseRuns_subset h)
    · rw [if_neg hab] at h
      rcases List.mem_cons.mp h with rfl | h'
      · exact List.mem_cons_self _ _
      · exact List.mem_cons_of_mem _ (collapseRuns_subset h')

lemma collapseRuns_of_chain : ∀ {l : List ℕ}, List.Chain' (· ≠ ·) l → collapseRuns l = l
  | [], _ => rfl
  | [a], _ => rfl
  | a :: b :: t, h => by
    rw [collapseRuns, if_neg (List.chain'_cons.mp h).1,
      collapseRuns_of_chain (List.chain'_cons.mp h).2]

lemma oneHot_length : ∀ (i n : ℕ), (oneHot i n).length = n
  | i, 0 => by cases i <;> simp [oneHot]
  | 0, n + 1 => by simp [oneHot]
  | i + 1, n + 1 => by simp [oneHot, oneHot_length i n]

lemma listMaxQ_cons_replicate_zero (n : ℕ) :
    listMaxQ ((0 : ℚ) :: List.replicate n 0) = 0 := by
  induction n with
  | zero => rfl
  | succ m ih => rw [List.replicate_succ, listMaxQ, ih, max_self]

lemma listMaxQ_oneHot : ∀ {i n : ℕ}, i < n → listMaxQ (oneHot i n) = 1
  | 0, n + 1, _ => by
    cases n with
    | zero => rfl
    | succ m =>
      rw [oneHot, List.replicate_succ, listMaxQ, listMaxQ_cons_replicate_zero]
      norm_num
  | i + 1, n + 1, h => by
    have hn : 0 < n := by omega
    have hne : oneHot i n ≠ [] := by
      intro he
      have := oneHot_length i n
      rw [he] at this
      simp at this
      omega
    rcases List.exists_cons_of_ne_nil hne with ⟨y, ys, hys⟩
    rw [oneHot, hys, listMaxQ, ← hys, listMaxQ_oneHot (Nat.lt_of_succ_lt_succ h)]
    norm_num

lemma argmaxRow_oneHot : ∀ {i n : ℕ}, i < n → argmaxRow (oneHot i n) = i
  | 0, n + 1, h => by
    rw [argmaxRow, listMaxQ_oneHot h]
    cases n with
    | zero => rfl
    | succ m => rw [oneHot]; exact List.indexOf_cons_self _ _
  | i + 1, n + 1, h => by
    rw [argmaxRow, listMaxQ_oneHot h, oneHot,
      List.indexOf_cons_ne _ (by norm_num : (0 : ℚ) ≠ 1)]
    have := argmaxRow_oneHot (Nat.lt_of_succ_lt_succ h)
    rw [argmaxRow, listMaxQ_oneHot (Nat.lt_of_succ_lt_succ h)] at this
    rw [this]

lemma mem_decodeIdx {M : List (List ℚ)} {cl : List Char}
    (hrows : ∀ row ∈ M, row.length = cl.length + 1) {i : ℕ} (hi : i ∈ decodeIdx M) :
    1 ≤ i ∧ i < cl.length + 1 := by
  have h1 : i ∈ (collapseRuns (M.map argmaxRow)).filter (· ≠ 0) := hi
  have h2 := List.of_mem_filter h1
  have h3 : i ∈ collapseRuns (M.map argmaxRow) := List.mem_of_mem_filter h1
  have h4 : i ∈ M.map argmaxRow := collapseRuns_subset h3
  rcases List.mem_map.mp h4 with ⟨row, hrow, rfl⟩
  have hne : row ≠ [] := by
    intro he
    have := hrows row hrow
    rw [he] at this
    simp at this
  constructor
  · have : argmaxRow row ≠ 0 := by simpa using h2
    omega
  · have := argmaxRow_lt_length hne
    rwa [hrows row hrow] at this

lemma mem_cl_of_mem_decode {M : List (List ℚ)} {cl : List Char}
    (hrows : ∀ row ∈ M, row.length = cl.length + 1) {c : Char}
    (hc : c ∈ ctc_decode M cl) : c ∈ cl := by
  rw [ctc_decode] at hc
  rcases List.mem_map.mp hc with ⟨i, hi, rfl⟩
  rcases mem_decodeIdx hrows hi with ⟨h1, h2⟩
  obtain ⟨j, rfl⟩ : ∃ j, i = j + 1 := ⟨i - 1, by omega⟩
  have hj : j < cl.length := by omega
  rw [lettersOf, List.getD_cons_succ, List.getD_eq_getElem _ _ hj]
  exact List.getElem_mem _

lemma letters_getD_indexOf {cl : List Char} {c : Char} (hc : c ∈ cl) :
    (lettersOf cl).getD (cl.indexOf c + 1) '?' = c := by
  have hlt : cl.indexOf c < cl.length := List.indexOf_lt_length.mpr hc
  rw [lettersOf, List.getD_cons_succ, List.getD_eq_getElem _ _ hlt]
  exact List.indexOf_get hlt

lemma indexOf_inj_of_mem {cl : List Char} {a b : Char} (ha : a ∈ cl) (hb : b ∈ cl)
    (h : cl.indexOf a = cl.indexOf b) : a = b := by
  have hlta : cl.indexOf a < cl.length := List.indexOf_lt_length.mpr ha
  have hltb : cl.indexOf b < cl.length := List.indexOf_lt_length.mpr hb
  have hget : cl.get ⟨cl.indexOf a, hlta⟩ = cl.get ⟨cl.indexOf b, hltb⟩ := by
    congr 1
    exact Fin.ext h
  rw [List.indexOf_get hlta, List.indexOf_get hltb] at hget
  exact hget

lemma chain'_ne_map {α β : Type*} (g : α → β) :
    ∀ {l : List α}, (∀ a ∈ l, ∀ b ∈ l, g a = g b → a = b) →
      List.Chain' (· ≠ ·) l → List.Chain' (· ≠ ·) (l.map g)
  | [], _, _ => List.chain'_nil
  | [a], _, _ => by simp
  | a :: b :: t, hinj, hch => by
    have hab := (List.chain'_cons.mp hch).1
    have ht := (List.chain'_cons.mp hch).2
    have hrec := chain'_ne_map g
      (fun x hx y hy => hinj x (List.mem_cons_of_mem _ hx) y (List.mem_cons_of_mem _ hy))
      ht
    rw [List.map_cons] at hrec
    rw [List.map_cons, List.map_cons]
    exact List.chain'_cons.mpr
      ⟨fun he => hab (hinj a (by simp) b (by simp) he), hrec⟩

/-! ### Claim C2 -/

/-- C2: the decoder proceeds as per-row arg-max (ties to the lowest index),
then collapse of consecutive equal labels, then removal of blanks (label 0),
then mapping index `i > 0` to `charlist[i-1]`; a blank between two equal
real labels yields the symbol twice, and the matrix whose rows arg-max to
`[0,0,2,2,3,0,3]` with charlist `["A","B","C"]` decodes to `"BCC"`. -/
theorem ctc_decode_order_spec :
    (∀ row : List ℚ, row ≠ [] →
        argmaxRow row < row.length ∧
        row.getD (argmaxRow row) 0 = listMaxQ row ∧
        ∀ j, j < argmaxRow row → row.getD j 0 < listMaxQ row) ∧
    (∀ a : ℕ, a ≠ 0 → (collapseRuns [a, 0, a]).filter (· ≠ 0) = [a, a]) ∧
    (∀ (cl : List Char) (i : ℕ), (lettersOf cl).getD (i + 1) '?' = cl.getD i '?') ∧
    ctc_decode
      [[5,5,0,0],[9,1,2,3],[0,1,7,2],[1,1,7,7],[0,0,1,9],[4,1,1,1],[0,2,3,8]]
      ['A','B','C'] = ['B','C','C'] := by
  refine ⟨fun row h =>
      ⟨argmaxRow_lt_length h, getD_argmaxRow h,
        fun j hj => getD_lt_of_lt_argmaxRow hj⟩,
    fun a ha => ?_, fun cl i => rfl, by decide⟩
  rw [collapseRuns, if_neg ha, collapseRuns, if_neg (Ne.symm ha)]
  simp [List.filter, ha]

/-- Witness for C2: the tie/blank conjunct at a concrete label. -/
theorem ctc_decode_order_spec_witness :
    (collapseRuns [2, 0, 2]).filter (· ≠ 0) = [2, 2] :=
  ctc_decode_order_spec.2.1 2 (by decide)

/-! ### Claim C5 -/

/-- C5 as stated is false: re-expanding a decoded output that contains two
adjacent equal symbols loses one of them.  The matrix `[[0,1],[1,0],[0,1]]`
decodes over charlist `["A"]` to `"AA"`, but expanding `"AA"` to one frame
per symbol and decoding again gives `"A"`. -/
theorem ctc_decode_reexpand_cex :
    ctc_decode
        (expandSeq ['A'] (ctc_decode ([[0,1],[1,0],[0,1]] : List (List ℚ)) ['A']))
        ['A']
      ≠ ctc_decode ([[0,1],[1,0],[0,1]] : List (List ℚ)) ['A'] := by decide

/-- C5 (amended): for every valid probability matrix (rows of width
`charlist.length + 1`) *whose decoded output has no two adjacent equal
symbols*, decode is idempotent under re-expansion:
`decode (expand (decode M)) = decode M` with `expand` mapping each decoded
symbol to one frame per symbol.  The charlist may contain duplicates:
re-expansion sends each symbol to its first-occurrence label, which decodes
back to the same symbol. -/
theorem ctc_decode_reexpand (M : List (List ℚ)) (cl : List Char)
    (hrows : ∀ row ∈ M, row.length = cl.length + 1)
    (hchain : List.Chain' (· ≠ ·) (ctc_decode M cl)) :
    ctc_decode (expandSeq cl (ctc_decode M cl)) cl = ctc_decode M cl := by
  have hmem : ∀ c ∈ ctc_decode M cl, c ∈ cl := fun c hc =>
    mem_cl_of_mem_decode hrows hc
  have hidx : (expandSeq cl (ctc_decode M cl)).map argmaxRow
      = (ctc_decode M cl).map (fun c => cl.indexOf c + 1) := by
    rw [expandSeq, List.map_map]
    refine List.map_congr_left fun c hc => ?_
    have hlt : cl.indexOf c < cl.length := List.indexOf_lt_length.mpr (hmem c hc)
    simpa using argmaxRow_oneHot (Nat.succ_lt_succ hlt)
  have hchainD' :
      List.Chain' (· ≠ ·) ((ctc_decode M cl).map (fun c => cl.indexOf c + 1)) :=
    chain'_ne_map _
      (fun a ha b hb h =>
        indexOf_inj_of_mem (hmem a ha) (hmem b hb) (by omega))
      hchain
  have hD : decodeIdx (expandSeq cl (ctc_decode M cl))
      = (ctc_decode M cl).map (fun c => cl.indexOf c + 1) := by
    rw [decodeIdx, hidx, collapseRuns_of_chain hchainD']
    refine List.filter_eq_self.mpr fun a ha => ?_
    rcases List.mem_map.mp ha with ⟨c, -, rfl⟩
    simp
  rw [ctc_decode, hD, List.map_map]
  refine (List.map_congr_left fun c hc => ?_).trans (List.map_id _)
  simpa using letters_getD_indexOf (hmem c hc)

/-- Witness for C5 (amended) at a concrete matrix over a charlist with a
duplicated symbol, whose decoded index points at a non-first occurrence. -/
theorem ctc_decode_reexpand_witness :
    ctc_decode
        (expandSeq ['A', 'A', 'B']
          (ctc_decode ([[0,0,1,0],[0,0,0,1]] : List (List ℚ)) ['A', 'A', 'B']))
        ['A', 'A', 'B']
      = ctc_decode ([[0,0,1,0],[0,0,0,1]] : List (List ℚ)) ['A', 'A', 'B'] :=
  ctc_decode_reexpand _ _ (by decide)
    (by
      rw [show ctc_decode ([[0,0,1,0],[0,0,0,1]] : List (List ℚ)) ['A', 'A', 'B']
          = ['A', 'B'] from by decide]
      exact List.chain'_cons.mpr ⟨by decide, List.chain'_singleton _⟩)

/-! ### Lemmas about the generation loop -/

lemma genStep_some {next : GenState → ℕ} {eos maxLen : ℕ} {s s' : GenState}
    (h : genStep next eos maxLen s = some s') :
    s'.input_ids = s.input_ids ++ [next s] ∧
      s'.attention_mask = s.attention_mask ++ [1] ∧
      ¬(s.input_ids.length = maxLen ∨ next s = eos) := by
  rw [genStep] at h
  by_cases hc : s.input_ids.length = maxLen ∨ next s = eos
  · rw [if_pos hc] at h
    simp at h
  · rw [if_neg hc] at h
    obtain rfl := Option.some.inj h
    exact ⟨rfl, rfl, hc⟩

lemma genStep_maskParallel {next : GenState → ℕ} {eos maxLen : ℕ} {s s' : GenState}
    (h : genStep next eos maxLen s = some s') (hp : maskParallel s) :
    maskParallel s' := by
  obtain ⟨h1, h2, -⟩ := genStep_some h
  constructor
  · rw [h1, h2]
    simp [hp.1]
  · rw [h2]
    intro b hb
    rcases List.mem_append.mp hb with hbm | hbm
    · exact hp.2 b hbm
    · exact Or.inr (by simpa using hbm)

lemma genRun_maskParallel {next : GenState → ℕ} {eos maxLen : ℕ} :
    ∀ (fuel : ℕ) (s₀ s : GenState) (n : ℕ), maskParallel s₀ →
      genRun next eos maxLen fuel s₀ = some (s, n) → maskParallel s
  | 0, s₀, s, n, _, hrun => by simp [genRun] at hrun
  | fuel + 1, s₀, s, n, hp, hrun => by
    rw [genRun] at hrun
    cases hstep : genStep next eos maxLen s₀ with
    | none =>
      rw [hstep] at hrun
      simp only [Option.some.injEq, Prod.mk.injEq] at hrun
      obtain ⟨rfl, rfl⟩ := hrun
      exact hp
    | some s' =>
      rw [hstep] at hrun
      dsimp only at hrun
      cases hrec : genRun next eos maxLen fuel s' with
      | none => rw [hrec] at hrun; simp at hrun
      | some p =>
        obtain ⟨t, m⟩ := p
        rw [hrec] at hrun
        simp only [Option.some.injEq, Prod.mk.injEq] at hrun
        obtain ⟨rfl, rfl⟩ := hrun
        exact genRun_maskParallel fuel s' t m (genStep_maskParallel hstep hp) hrec

/-! ### Claim C1 -/

/-- C1: a completed generation run returns the unaltered prompt followed by
the tokens appended in non-terminal steps; the `eos` token never appears
among the appended tokens, because the loop breaks *before* the append
whenever the freshly sampled token equals `eos_token_id`. -/
theorem generate_eos_never_appended (next : GenState → ℕ) (eos maxLen fuel : ℕ)
    (s₀ s : GenState) (n : ℕ)
    (hrun : genRun next eos maxLen fuel s₀ = some (s, n)) :
    ∃ app : List ℕ, s.input_ids = s₀.input_ids ++ app ∧ eos ∉ app := by
  induction fuel generalizing s₀ n with
  | zero => simp [genRun] at hrun
  | succ f ih =>
    rw [genRun] at hrun
    cases hstep : genStep next eos maxLen s₀ with
    | none =>
      rw [hstep] at hrun
      simp only [Option.some.injEq, Prod.mk.injEq] at hrun
      obtain ⟨rfl, rfl⟩ := hrun
      exact ⟨[], by simp, by simp⟩
    | some s' =>
      rw [hstep] at hrun
      dsimp only at hrun
      cases hrec : genRun next eos maxLen f s' with
      | none => rw [hrec] at hrun; simp at hrun
      | some p =>
        obtain ⟨t, m⟩ := p
        rw [hrec] at hrun
        simp only [Option.some.injEq, Prod.mk.injEq] at hrun
        obtain ⟨rfl, rfl⟩ := hrun
        obtain ⟨h1, h2, hc⟩ := genStep_some hstep
        rcases ih s' m hrec with ⟨app, happ, hno⟩
        refine ⟨next s₀ :: app, ?_, ?_⟩
        · rw [happ, h1]
          simp
        · intro hmem
          rcases List.mem_cons.mp hmem with he | hm
          · exact (not_or.mp hc).2 he.symm
          · exact hno hm

/-- Witness for C1: a run whose oracle immediately samples `eos`. -/
theorem generate_eos_never_appended_witness :
    ∃ app : List ℕ,
      (GenState.mk [1] [1]).input_ids = (GenState.mk [1] [1]).input_ids ++ app ∧
        50256 ∉ app :=
  generate_eos_never_appended (fun _ => 50256) 50256 5 10
    ⟨[1], [1]⟩ ⟨[1], [1]⟩ 1 (by decide)

/-! ### Claim C4 -/

/-- C4: when `max_sequence_length` equals the prompt length, the run
returns the prompt unchanged after exactly one loop iteration — hence
exactly one inference-engine call, issued before the termination test
fires (the test runs strictly after sampling). -/
theorem generate_max_eq_prompt (next : GenState → ℕ) (eos fuel : ℕ)
    (s₀ : GenState) (hfuel : 0 < fuel) :
    genRun next eos s₀.input_ids.length fuel s₀ = some (s₀, 1) := by
  obtain ⟨f, rfl⟩ : ∃ f, fuel = f + 1 := ⟨fuel - 1, by omega⟩
  rw [genRun, genStep, if_pos (Or.inl rfl)]

/-- Witness for C4: a concrete prompt of length one with `max_length = 1`. -/
theorem generate_max_eq_prompt_witness :
    genRun (fun _ => 7) 50256 (GenState.mk [10] [1]).input_ids.length 3
      ⟨[10], [1]⟩ = some (⟨[10], [1]⟩, 1) :=
  generate_max_eq_prompt (fun _ => 7) 50256 3 ⟨[10], [1]⟩ (by decide)

/-! ### Claim C9 -/

/-- C9: the attention mask stays parallel to the token sequence (equal
length, entries in {0,1}) throughout a run: every non-terminal step appends
exactly one token and extends the mask by exactly one entry equal to `1`,
leaving all existing entries untouched, and the invariant is preserved by
every completed run. -/
theorem generation_mask_invariant (next : GenState → ℕ) (eos maxLen : ℕ)
    (s₀ : GenState) (hp : maskParallel s₀) :
    (∀ s', genStep next eos maxLen s₀ = some s' →
        s'.input_ids = s₀.input_ids ++ [next s₀] ∧
        s'.attention_mask = s₀.attention_mask ++ [1] ∧ maskParallel s') ∧
    (∀ fuel s n, genRun next eos maxLen fuel s₀ = some (s, n) → maskParallel s) := by
  constructor
  · intro s' hstep
    obtain ⟨h1, h2, -⟩ := genStep_some hstep
    exact ⟨h1, h2, genStep_maskParallel hstep hp⟩
  · intro fuel s n hrun
    exact genRun_maskParallel fuel s₀ s n hp hrun

/-- Witness for C9 at a concrete step of a concrete initial state. -/
theorem generation_mask_invariant_witness :
    (GenState.mk [1, 2, 4] [1, 1, 1]).input_ids
        = (GenState.mk [1, 2] [1, 1]).input_ids ++ [4] ∧
      (GenState.mk [1, 2, 4] [1, 1, 1]).attention_mask
        = (GenState.mk [1, 2] [1, 1]).attention_mask ++ [1] ∧
      maskParallel ⟨[1, 2, 4], [1, 1, 1]⟩ :=
  (generation_mask_invariant (fun _ => 4) 9 8 ⟨[1, 2], [1, 1]⟩ (by decide)).1
    ⟨[1, 2, 4], [1, 1, 1]⟩ (by decide)

/-! ### Claim C10 -/

/-- C10: if the prompt is no longer than `max_sequence_length`, the loop
terminates within `max_sequence_length - len(prompt) + 1` iterations and
the returned sequence has length at most `max_sequence_length`; the
length-based stop is the equality test `cur_input_len == max_sequence_length`,
and `len(prompt) ≤ max_sequence_length` is the precondition under which it
is guaranteed to fire. -/
theorem generation_terminates (next : GenState → ℕ) (eos maxLen fuel : ℕ)
    (s₀ : GenState) (hlen : s₀.input_ids.length ≤ maxLen)
    (hfuel : maxLen - s₀.input_ids.length < fuel) :
    ∃ s n, genRun next eos maxLen fuel s₀ = some (s, n) ∧
      n ≤ maxLen - s₀.input_ids.length + 1 ∧ s.input_ids.length ≤ maxLen := by
  induction fuel generalizing s₀ with
  | zero => omega
  | succ f ih =>
    rw [genRun]
    cases hstep : genStep next eos maxLen s₀ with
    | none => exact ⟨s₀, 1, rfl, by omega, hlen⟩
    | some s' =>
      obtain ⟨h1, -, hc⟩ := genStep_some hstep
      have hlen' : s'.input_ids.length = s₀.input_ids.length + 1 := by
        rw [h1]
        simp
      have hlt : s₀.input_ids.length < maxLen :=
        lt_of_le_of_ne hlen (not_or.mp hc).1
      rcases ih s' (by omega) (by omega) with ⟨s, n, hrec, hn, hslen⟩
      dsimp only
      rw [hrec]
      exact ⟨s, n + 1, rfl, by omega, hslen⟩

/-- Witness for C10: a concrete prompt of length 1 with `max_length = 3`. -/
theorem generation_terminates_witness :
    ∃ s n, genRun (fun _ => 6) 50256 3 4 ⟨[5], [1]⟩ = some (s, n) ∧
      n ≤ 3 - (GenState.mk [5] [1]).input_ids.length + 1 ∧
      s.input_ids.length ≤ 3 :=
  generation_terminates (fun _ => 6) 50256 3 4 ⟨[5], [1]⟩ (by decide) (by decide)

/-! ### Lemmas about the top-k threshold -/

lemma sortDesc_sorted (l : List Score) : (sortDesc l).Sorted (· ≥ ·) :=
  List.sorted_insertionSort _ _

lemma sortDesc_perm (l : List Score) : List.Perm (sortDesc l) l :=
  List.perm_insertionSort _ _

lemma sortDesc_length (l : List Score) : (sortDesc l).length = l.length :=
  (sortDesc_perm l).length_eq

lemma length_filter_lt {α : Type*} (p : α → Bool) :
    ∀ {t : List α} {x : α}, x ∈ t → p x = false → (t.filter p).length < t.length
  | a :: t, x, hx, hpx => by
    rcases List.mem_cons.mp hx with rfl | hxt
    · rw [List.filter_cons, if_neg (by simp [hpx])]
      calc (t.filter p).length ≤ t.length := t.length_filter_le p
        _ < (x :: t).length := by simp
    · rw [List.filter_cons]
      by_cases hpa : p a = true
      · rw [if_pos (by simp [hpa])]
        simpa using Nat.succ_lt_succ (length_filter_lt p hxt hpx)
      · rw [if_neg (by simp [hpa])]
        calc (t.filter p).length < t.length := length_filter_lt p hxt hpx
          _ ≤ (a :: t).length := by simp

lemma kthBest_counts (l : List Score) (k : ℕ) (hk1 : 1 ≤ k) (hk2 : k ≤ l.length) :
    k ≤ (l.filter (fun s => kthBest l k ≤ s)).length ∧
      (l.filter (fun s => kthBest l k < s)).length < k := by
  have hperm : List.Perm (sortDesc l) l := sortDesc_perm l
  have hLlen : k ≤ (sortDesc l).length := by rw [sortDesc_length]; exact hk2
  have hthr : kthBest l k = listMinWB ((sortDesc l).take k) := rfl
  have htake_ne : (sortDesc l).take k ≠ [] := by
    intro he
    have hl : ((sortDesc l).take k).length = 0 := by rw [he]; rfl
    rw [List.length_take] at hl
    omega
  have hmem_take : kthBest l k ∈ (sortDesc l).take k := hthr ▸ listMinWB_mem htake_ne
  have hboundTake : ∀ y ∈ (sortDesc l).take k, kthBest l k ≤ y := fun y hy =>
    hthr ▸ listMinWB_le hy
  have hcross : ∀ x ∈ (sortDesc l).take k, ∀ y ∈ (sortDesc l).drop k, x ≥ y := by
    have hp : ((sortDesc l).take k ++ (sortDesc l).drop k).Pairwise (· ≥ ·) := by
      rw [List.take_append_drop]
      exact sortDesc_sorted l
    exact fun x hx y hy => (List.pairwise_append.mp hp).2.2 x hx y hy
  have hdrop_le : ∀ y ∈ (sortDesc l).drop k, y ≤ kthBest l k := fun y hy =>
    hcross _ hmem_take y hy
  have htklen : ((sortDesc l).take k).length = k := by
    rw [List.length_take]
    omega
  constructor
  · have h1 : (sortDesc l).filter (fun s => kthBest l k ≤ s) =
        (sortDesc l).take k ++
          ((sortDesc l).drop k).filter (fun s => kthBest l k ≤ s) := by
      conv_lhs => rw [← List.take_append_drop k (sortDesc l)]
      rw [List.filter_append]
      congr 1
      exact List.filter_eq_self.mpr fun a ha => decide_eq_true (hboundTake a ha)
    calc k = ((sortDesc l).take k).length := htklen.symm
      _ ≤ ((sortDesc l).filter (fun s => kthBest l k ≤ s)).length := by
          rw [h1, List.length_append]
          omega
      _ = (l.filter (fun s => kthBest l k ≤ s)).length := (hperm.filter _).length_eq
  · have h2 : (sortDesc l).filter (fun s => kthBest l k < s) =
        ((sortDesc l).take k).filter (fun s => kthBest l k < s) := by
      conv_lhs => rw [← List.take_append_drop k (sortDesc l)]
      rw [List.filter_append]
      have hnil : ((sortDesc l).drop k).filter (fun s => kthBest l k < s) = [] :=
        List.filter_eq_nil_iff.mpr fun a ha => by
          simpa using not_lt.mpr (hdrop_le a ha)
      rw [hnil, List.append_nil]
    calc (l.filter (fun s => kthBest l k < s)).length
        = ((sortDesc l).filter (fun s => kthBest l k < s)).length :=
          ((hperm.filter _).length_eq).symm
      _ < ((sortDesc l).take k).length := by
          rw [h2]
          exact length_filter_lt _ hmem_take (by simp)
      _ = k := htklen

/-! ### Claim C3 -/

/-- C3: top-k filtering first clamps `k` to `[1, vocab_size]`, then keeps
(unchanged) exactly the entries not strictly below the k-th highest score,
replacing the others by `-∞`; the threshold really is the k-th highest
value — at least `k` entries lie at or above it while fewer than `k` lie
strictly above it — so boundary ties are all retained and, as the closing
concrete instance shows, more than `k` entries may survive. -/
theorem get_top_k_spec (scores : List Score) (top_k : ℕ) (hne : scores ≠ []) :
    1 ≤ clampK top_k scores.length ∧ clampK top_k scores.length ≤ scores.length ∧
    (∀ i, i < scores.length →
        (kthBest scores (clampK top_k scores.length) ≤ scores.getD i ⊥ →
          (get_top_k_logits scores top_k).getD i ⊥ = scores.getD i ⊥) ∧
        (scores.getD i ⊥ < kthBest scores (clampK top_k scores.length) →
          (get_top_k_logits scores top_k).getD i ⊥ = ⊥)) ∧
    clampK top_k scores.length ≤
      (scores.filter (fun s => kthBest scores (clampK top_k scores.length) ≤ s)).length ∧
    (scores.filter (fun s => kthBest scores (clampK top_k scores.length) < s)).length
      < clampK top_k scores.length ∧
    get_top_k_logits [((1 : ℚ) : Score), ((0 : ℚ) : Score), ((0 : ℚ) : Score)] 2
      = [((1 : ℚ) : Score), ((0 : ℚ) : Score), ((0 : ℚ) : Score)] := by
  have hlen : 0 < scores.length := List.length_pos.mpr hne
  have hk1 : 1 ≤ clampK top_k scores.length := by
    simp only [clampK]
    omega
  have hk2 : clampK top_k scores.length ≤ scores.length := by
    simp only [clampK]
    omega
  have hpt : ∀ i, i < scores.length → (get_top_k_logits scores top_k).getD i ⊥
      = if scores.getD i ⊥ < kthBest scores (clampK top_k scores.length) then ⊥
        else scores.getD i ⊥ := by
    intro i hi
    simp only [get_top_k_logits]
    exact getD_map _ hi ⊥ ⊥
  obtain ⟨hc1, hc2⟩ := kthBest_counts scores (clampK top_k scores.length) hk1 hk2
  refine ⟨hk1, hk2, fun i hi => ⟨fun hge => ?_, fun hlt => ?_⟩, hc1, hc2, by decide⟩
  · rw [hpt i hi, if_neg (not_lt.mpr hge)]
  · rw [hpt i hi, if_pos hlt]

/-- Witness for C3 at a concrete score vector. -/
theorem get_top_k_spec_witness :
    1 ≤ clampK 20 [((3 : ℚ) : Score), ((1 : ℚ) : Score)].length :=
  (get_top_k_spec [((3 : ℚ) : Score), ((1 : ℚ) : Score)] 20 (by decide)).1

/-! ### Claim C7 -/

/-- C7: for every score vector and every `top_k` at least the vocabulary
size, top-k filtering is the identity: every entry is at least the k-th
highest (the global minimum), so nothing is replaced by `-∞`. -/
theorem get_top_k_noop (scores : List Score) (top_k : ℕ)
    (h : scores.length ≤ top_k) : get_top_k_logits scores top_k = scores := by
  rcases eq_or_ne scores [] with rfl | hne
  · rfl
  · have hlen : 0 < scores.length := List.length_pos.mpr hne
    have hk : clampK top_k scores.length = scores.length := by
      simp only [clampK]
      omega
    have htake : (sortDesc scores).take scores.length = sortDesc scores := by
      apply List.take_of_length_le
      rw [sortDesc_length]
    simp only [get_top_k_logits, hk, kthBest, htake]
    refine (List.map_congr_left fun s hs => ?_).trans (List.map_id _)
    rw [if_neg (not_lt.mpr (listMinWB_le ((sortDesc_perm scores).mem_iff.mpr hs)))]
    rfl

/-- Witness for C7 at a concrete score vector. -/
theorem get_top_k_noop_witness :
    get_top_k_logits [((5 : ℚ) : Score), ((2 : ℚ) : Score)] 7
      = [((5 : ℚ) : Score), ((2 : ℚ) : Score)] :=
  get_top_k_noop _ 7 (by decide)

/-! ### Lemmas about softmax -/

lemma expShift_nonneg (m a : Score) : 0 ≤ expShift m a := by
  cases a with
  | none => cases m <;> exact le_refl 0
  | some q =>
    cases m with
    | none => exact le_refl 0
    | some mq => exact le_of_lt (Real.exp_pos _)

lemma expShift_self (q : ℚ) : expShift ((q : ℚ) : Score) ((q : ℚ) : Score) = 1 := by
  show Real.exp ((q : ℝ) - (q : ℝ)) = 1
  rw [sub_self, Real.exp_zero]

lemma expShift_bot (m : Score) : expShift m ⊥ = 0 := by
  cases m <;> rfl

lemma sum_map_div (l : List ℝ) (s : ℝ) : (l.map (fun v => v / s)).sum = l.sum / s := by
  induction l with
  | nil => simp
  | cons a t ih => simp [ih, add_div]

lemma sum_pos_of_mem :
    ∀ {l : List ℝ}, (∀ v ∈ l, 0 ≤ v) → ∀ {a : ℝ}, a ∈ l → 0 < a → 0 < l.sum
  | [], _, a, ha, _ => by simp at ha
  | b :: t, hnn, a, ha, hpos => by
    rw [List.sum_cons]
    rcases List.mem_cons.mp ha with rfl | hat
    · have ht : 0 ≤ t.sum :=
        List.sum_nonneg fun v hv => hnn v (List.mem_cons_of_mem _ hv)
      linarith
    · have hb : 0 ≤ b := hnn b (List.mem_cons_self _ _)
      have ht := sum_pos_of_mem (fun v hv => hnn v (List.mem_cons_of_mem _ hv)) hat hpos
      linarith

/-! ### Claim C8 -/

/-- C8: on every score row holding at least one finite entry (the domain
softmax sees in the program: its input always retains the row maximum as a
finite value), the softmax — which subtracts the row maximum before
exponentiating — returns entries that are all non-negative and sum to 1. -/
theorem softmax_props (x : List Score) (hm : listMaxWB x ≠ ⊥) :
    (∀ v ∈ softmax x, 0 ≤ v) ∧ (softmax x).sum = 1 := by
  obtain ⟨m, hm'⟩ : ∃ m : ℚ, listMaxWB x = ((m : ℚ) : Score) := by
    cases h : listMaxWB x with
    | none => exact absurd h hm
    | some m => exact ⟨m, rfl⟩
  have hxne : x ≠ [] := by
    rintro rfl
    exact hm rfl
  have hmem : ((m : ℚ) : Score) ∈ x := hm' ▸ listMaxWB_mem hxne
  set e := x.map (expShift (listMaxWB x)) with he
  have hnn : ∀ v ∈ e, 0 ≤ v := by
    intro v hv
    rcases List.mem_map.mp hv with ⟨a, -, rfl⟩
    exact expShift_nonneg _ _
  have h1 : expShift (listMaxWB x) ((m : ℚ) : Score) = 1 := by
    rw [hm']
    exact expShift_self m
  have h1mem : (1 : ℝ) ∈ e := by
    rw [he]
    exact List.mem_map.mpr ⟨((m : ℚ) : Score), hmem, h1⟩
  have hs : 0 < e.sum := sum_pos_of_mem hnn h1mem one_pos
  constructor
  · intro v hv
    simp only [softmax] at hv
    rw [← he] at hv
    rcases List.mem_map.mp hv with ⟨w, hw, rfl⟩
    exact div_nonneg (hnn w hw) (le_of_lt hs)
  · simp only [softmax]
    rw [← he, sum_map_div, div_self (ne_of_gt hs)]

/-- Witness for C8 at a concrete one-entry row. -/
theorem softmax_props_witness :
    (∀ v ∈ softmax [((0 : ℚ) : Score)], 0 ≤ v) ∧
      (softmax [((0 : ℚ) : Score)]).sum = 1 :=
  softmax_props _ (by decide)

/-! ### Lemmas for top-1 sampling -/

lemma process_logits_zero (cur_length : ℕ) (scores : List Score) (eos_token_id : ℕ) :
    process_logits cur_length scores eos_token_id 0 = scores := by
  simp [process_logits]

lemma kthBest_one {l : List Score} (hne : l ≠ []) : kthBest l 1 = listMaxWB l := by
  have hsne : sortDesc l ≠ [] := by
    intro he
    have hl := sortDesc_length l
    rw [he] at hl
    exact hne (List.length_eq_zero.mp hl.symm)
  rcases List.exists_cons_of_ne_nil hsne with ⟨a, t, hat⟩
  have hmax : listMaxWB l = a := by
    apply listMaxWB_eq_of
    · exact (sortDesc_perm l).mem_iff.mp (hat ▸ List.mem_cons_self a t)
    · intro y hy
      have hy' : y ∈ sortDesc l := (sortDesc_perm l).mem_iff.mpr hy
      rw [hat] at hy'
      rcases List.mem_cons.mp hy' with rfl | hyt
      · exact le_refl y
      · exact List.rel_of_sorted_cons (hat ▸ sortDesc_sorted l) y hyt
  rw [kthBest, hat, hmax]
  rfl

lemma listMaxWB_map_coe (l : List ℚ) (hne : l ≠ []) :
    listMaxWB (l.map coeScore) = ((listMaxQ l : ℚ) : Score) := by
  apply listMaxWB_eq_of
  · exact List.mem_map.mpr ⟨listMaxQ l, listMaxQ_mem hne, rfl⟩
  · intro y hy
    rcases List.mem_map.mp hy with ⟨q, hq, rfl⟩
    exact WithBot.coe_le_coe.mpr (le_listMaxQ hq)

/-! ### Claim C6 -/

/-- C6 as stated is false: for a logit vector with a tie at the maximum,
the inclusive top-1 threshold keeps both tied entries, softmax gives each
probability 1/2, and `np.random.choice` can return index 1 although the
arg-max of the post-processed logits is index 0 — sampling with
`top_k = 1` is not deterministic. -/
theorem top1_sampling_cex :
    canSample (softmax (get_top_k_logits
        (process_logits 5 (([0, 0] : List ℚ).map coeScore) 50256 0)
        1)) 1 ∧
      argmaxWB (get_top_k_logits
        (process_logits 5 (([0, 0] : List ℚ).map coeScore) 50256 0)
        1) ≠ 1 := by
  rw [process_logits_zero]
  have hF : get_top_k_logits (([0, 0] : List ℚ).map coeScore) 1
      = [((0 : ℚ) : Score), ((0 : ℚ) : Score)] := by decide
  rw [hF]
  have hmax : listMaxWB [((0 : ℚ) : Score), ((0 : ℚ) : Score)] = ((0 : ℚ) : Score) := by
    decide
  have he : ([((0 : ℚ) : Score), ((0 : ℚ) : Score)]).map
      (expShift (listMaxWB [((0 : ℚ) : Score), ((0 : ℚ) : Score)])) = [1, 1] := by
    rw [hmax]
    simp only [List.map_cons, List.map_nil]
    rw [expShift_self]
  refine ⟨⟨?_, ?_⟩, by decide⟩
  · simp only [softmax, he]
    norm_num
  · simp only [softmax, he]
    norm_num [List.getD]

/-- C6 (amended): for every logit vector whose maximum is attained at
exactly one index, sampling with `top_k = 1` is deterministic: the tokens
`np.random.choice` can return are exactly the arg-max of the post-processed
logits. -/
theorem top1_sampling_deterministic (scores : List ℚ) (cur_length eos_token_id : ℕ)
    (hne : scores ≠ [])
    (huniq : ∀ j, j < scores.length → j ≠ scores.indexOf (listMaxQ scores) →
        scores.getD j 0 < listMaxQ scores) :
    ∀ i, canSample (softmax (get_top_k_logits
        (process_logits cur_length (scores.map coeScore) eos_token_id 0)
        1)) i ↔
      i = argmaxWB (get_top_k_logits
        (process_logits cur_length (scores.map coeScore) eos_token_id 0)
        1) := by
  intro i
  rw [process_logits_zero]
  have hcsne : scores.map coeScore ≠ [] := fun h => hne (List.map_eq_nil_iff.mp h)
  have hcslen : (scores.map coeScore).length = scores.length :=
    List.length_map _ _
  have hmax : listMaxWB (scores.map coeScore)
      = ((listMaxQ scores : ℚ) : Score) := listMaxWB_map_coe scores hne
  have hthr : kthBest (scores.map coeScore)
      (clampK 1 (scores.map coeScore).length)
      = ((listMaxQ scores : ℚ) : Score) := by
    have hpos : 0 < (scores.map coeScore).length := by
      rw [hcslen]
      exact List.length_pos.mpr hne
    have h1 : clampK 1 (scores.map coeScore).length = 1 := by
      simp only [clampK]
      omega
    rw [h1, kthBest_one hcsne, hmax]
  have hi0lt : scores.indexOf (listMaxQ scores) < scores.length :=
    List.indexOf_lt_length.mpr (listMaxQ_mem hne)
  have hgetD_i0 : scores.getD (scores.indexOf (listMaxQ scores)) 0 = listMaxQ scores :=
    getD_argmaxRow hne
  have hF : ∀ j, j < scores.length →
      (get_top_k_logits (scores.map coeScore) 1).getD j ⊥ =
        if scores.getD j 0 < listMaxQ scores then ⊥
        else ((scores.getD j 0 : ℚ) : Score) := by
    intro j hj
    simp only [get_top_k_logits, hthr]
    rw [getD_map _ (hcslen ▸ hj) ⊥ ⊥, getD_map _ hj 0 ⊥,
      show coeScore (scores.getD j 0) = ((scores.getD j 0 : ℚ) : Score) from rfl]
    by_cases hlt : scores.getD j 0 < listMaxQ scores
    · rw [if_pos (by exact_mod_cast hlt), if_pos hlt]
    · rw [if_neg (fun hcc => hlt (by exact_mod_cast hcc)), if_neg hlt]
  have hFval : ∀ j, j < scores.length → j ≠ scores.indexOf (listMaxQ scores) →
      (get_top_k_logits (scores.map coeScore) 1).getD j ⊥ = ⊥ := by
    intro j hj hji
    rw [hF j hj, if_pos (huniq j hj hji)]
  have hFi0 : (get_top_k_logits (scores.map coeScore) 1).getD
      (scores.indexOf (listMaxQ scores)) ⊥ = ((listMaxQ scores : ℚ) : Score) := by
    rw [hF _ hi0lt, hgetD_i0, if_neg (lt_irrefl _)]
  have hFlen : (get_top_k_logits (scores.map coeScore) 1).length
      = scores.length := by
    simp only [get_top_k_logits]
    rw [List.length_map, hcslen]
  have hFmem : ((listMaxQ scores : ℚ) : Score)
      ∈ get_top_k_logits (scores.map coeScore) 1 := by
    have hmm := hFi0
    rw [List.getD_eq_getElem _ _ (hFlen ▸ hi0lt)] at hmm
    exact hmm ▸ List.getElem_mem _
  have hFmax : listMaxWB (get_top_k_logits (scores.map coeScore) 1)
      = ((listMaxQ scores : ℚ) : Score) := by
    apply listMaxWB_eq_of hFmem
    intro y hy
    simp only [get_top_k_logits, hthr] at hy
    rcases List.mem_map.mp hy with ⟨s, hs, rfl⟩
    by_cases hlt : s < ((listMaxQ scores : ℚ) : Score)
    · rw [if_pos hlt]
      exact bot_le
    · rw [if_neg hlt]
      exact hmax ▸ le_listMaxWB hs
  have hargmax : argmaxWB (get_top_k_logits (scores.map coeScore) 1)
      = scores.indexOf (listMaxQ scores) := by
    rw [argmaxWB, hFmax]
    apply indexOf_eq_of_getD _ _ ⊥ _ (hFlen ▸ hi0lt) hFi0
    intro j hj
    rw [hFval j (by omega) (by omega)]
    simp
  have hnn : ∀ v ∈ (get_top_k_logits (scores.map coeScore) 1).map
      (expShift (listMaxWB (get_top_k_logits (scores.map coeScore) 1))),
      0 ≤ v := by
    intro v hv
    rcases List.mem_map.mp hv with ⟨a, -, rfl⟩
    exact expShift_nonneg _ _
  have h1mem : (1 : ℝ) ∈ (get_top_k_logits (scores.map coeScore) 1).map
      (expShift (listMaxWB (get_top_k_logits (scores.map coeScore) 1))) := by
    refine List.mem_map.mpr ⟨((listMaxQ scores : ℚ) : Score), hFmem, ?_⟩
    rw [hFmax]
    exact expShift_self _
  have hS : 0 < ((get_top_k_logits (scores.map coeScore) 1).map
      (expShift (listMaxWB (get_top_k_logits (scores.map coeScore) 1)))).sum :=
    sum_pos_of_mem hnn h1mem one_pos
  have helen : ((get_top_k_logits (scores.map coeScore) 1).map
      (expShift (listMaxWB (get_top_k_logits (scores.map coeScore) 1)))).length
      = scores.length := by
    rw [List.length_map, hFlen]
  have hprobs : ∀ j, j < scores.length →
      (softmax (get_top_k_logits (scores.map coeScore) 1)).getD j 0
        = expShift (listMaxWB (get_top_k_logits (scores.map coeScore) 1))
            ((get_top_k_logits (scores.map coeScore) 1).getD j ⊥) /
          ((get_top_k_logits (scores.map coeScore) 1).map
            (expShift (listMaxWB (get_top_k_logits
              (scores.map coeScore) 1)))).sum := by
    intro j hj
    simp only [softmax]
    rw [getD_map _ (helen ▸ hj) 0 0, getD_map _ (hFlen ▸ hj) ⊥ 0]
  have hsmlen : (softmax (get_top_k_logits (scores.map coeScore) 1)).length
      = scores.length := by
    simp only [softmax]
    rw [List.length_map, helen]
  constructor
  · rintro ⟨hilt, hipos⟩
    by_contra hii
    have hilt' : i < scores.length := hsmlen ▸ hilt
    have hzero : (softmax (get_top_k_logits (scores.map coeScore) 1)).getD i 0
        = 0 := by
      rw [hprobs i hilt', hFval i hilt' (fun hei => hii (hei ▸ hargmax.symm)),
        expShift_bot, zero_div]
    rw [hzero] at hipos
    exact lt_irrefl 0 hipos
  · rintro rfl
    rw [hargmax]
    refine ⟨hsmlen ▸ hi0lt, ?_⟩
    rw [hprobs _ hi0lt, hFi0, hFmax, expShift_self]
    rw [hFmax] at hS
    exact div_pos one_pos hS

/-- Witness for C6 (amended) at a concrete untied logit vector. -/
theorem top1_sampling_deterministic_witness :
    canSample (softmax (get_top_k_logits
        (process_logits 1 (([2, 1] : List ℚ).map coeScore) 50256 0)
        1)) 0 ↔
      (0 : ℕ) = argmaxWB (get_top_k_logits
        (process_logits 1 (([2, 1] : List ℚ).map coeScore) 50256 0)
        1) :=
  top1_sampling_deterministic [2, 1] 1 50256 (by decide) (by decide) 0

end OVN
